import Mathlib

/-!
Verification of the 15-puzzle implementation (`puzzle15/src/lib.rs`).

The board (`GameState.board : Vec<Vec<Option<u8>>>`) is always a 4×4
column-major grid; we embed it as a function `Fin 4 → Fin 4 → Option Nat`
(`g x y` is column `x`, row `y`, mirroring `board[x][y]`).  Rust panics are
modelled by `Option`-valued results (`none` = panic), and the `u8` tile
values live in `Nat` (parsing enforces the `≤ 255` bound exactly where the
Rust `u8` parser does).
-/

namespace Puzzle15

/-- The four move labels of `enum Move`. -/
inductive Move where
  | LeftToRight
  | RightToLeft
  | TopToBottom
  | BottomToTop
deriving DecidableEq, Repr

/-- The 4×4 board contents: `g x y` is `board[x][y]` (column `x`, row `y`). -/
abbrev Board := Fin 4 → Fin 4 → Option Nat

/-- `Default::default()`: the solved position, written column-major exactly as
the source literal. -/
def default_board : Board := fun x y =>
  ([[some 1, some 5, some 9, some 13],
    [some 2, some 6, some 10, some 14],
    [some 3, some 7, some 11, some 15],
    [some 4, some 8, some 12, none]].getD x.val []).getD y.val none

/-- `GameState::set`: unconditionally overwrite the cell `(x, y)`. -/
def setCell (g : Board) (x y : Fin 4) (v : Option Nat) : Board :=
  fun i j => if i = x ∧ j = y then v else g i j

/-- `GameState::swap`: exchange `(x1,y1)` and `(x2,y2)` through a temporary,
as in the source (`tmp` is read before either write). -/
def swap (g : Board) (x1 y1 x2 y2 : Fin 4) : Board :=
  setCell (setCell g x1 y1 (g x2 y2)) x2 y2 (g x1 y1)

/-- The 16 cell positions in the scan order used by the source loops:
outer index `i` (column), inner index `j` (row). -/
def scanList : List (Fin 4 × Fin 4) :=
  (List.finRange 4).flatMap (fun i => (List.finRange 4).map (fun j => (i, j)))

/-- The 16 cell values of a board, in scan order. -/
def cellsList (g : Board) : List (Option Nat) :=
  scanList.map (fun p => g p.1 p.2)

/-- The scan of `GameState::all_tiles_unique`: walk the cells with the
16-slot `tile_tracker` (index 0 for `None`, 1–15 for tiles), returning
`false` as soon as a value is out of `1..=15` or seen twice. -/
def uniqueScan : List (Option Nat) → (Nat → Bool) → Bool
  | [], _ => true
  | none :: rest, seen =>
    if seen 0 then false else uniqueScan rest (fun n => if n = 0 then true else seen n)
  | some v :: rest, seen =>
    if 15 < v ∨ v < 1 then false
    else if seen v then false
    else uniqueScan rest (fun n => if n = v then true else seen n)

/-- `GameState::all_tiles_unique`. -/
def all_tiles_unique (g : Board) : Bool :=
  uniqueScan (cellsList g) (fun _ => false)

/-- `GameState::empty_loc`: first cell in scan order holding `None`;
`none` models the `panic!` when the board has no empty position. -/
def empty_loc (g : Board) : Option (Fin 4 × Fin 4) :=
  scanList.find? (fun p => (g p.1 p.2).isNone)

/-- `GameState::perform_move`: locate the empty cell, and per the move either
fail (empty cell on the pulled-from edge) or swap with the neighbour.
The outer `Option` is the `empty_loc` panic; the `Bool` is the return value. -/
def perform_move (g : Board) (m : Move) : Option (Board × Bool) :=
  match empty_loc g with
  | none => none
  | some (x, y) =>
    match m with
    | Move.LeftToRight => if x = 0 then some (g, false) else some (swap g x y (x - 1) y, true)
    | Move.RightToLeft => if x = 3 then some (g, false) else some (swap g x y (x + 1) y, true)
    | Move.BottomToTop => if y = 3 then some (g, false) else some (swap g x y x (y + 1), true)
    | Move.TopToBottom => if y = 0 then some (g, false) else some (swap g x y x (y - 1), true)

/-- `GameState::perform_moves`: apply the moves in order, counting the
successful ones; a failed move is skipped, not fatal. -/
def perform_moves (g : Board) (moves : List Move) : Option (Board × Nat) :=
  match moves with
  | [] => some (g, 0)
  | m :: rest =>
    match perform_move g m with
    | none => none
    | some (g', moved) =>
      match perform_moves g' rest with
      | none => none
      | some (g'', c) => some (g'', if moved then c + 1 else c)

/-- Content equality of two boards, cell by cell (`impl PartialEq for
GameState`, also the `HashMap` key equality on `board`). -/
def eqBoard (g h : Board) : Bool :=
  scanList.all (fun p => g p.1 p.2 == h p.1 p.2)

/-- Board equality is decidable by comparing all 16 cells (this is also how
the source compares `GameState`s); the instance is written so that it
evaluates by kernel reduction. -/
instance instDecidableEqBoard : DecidableEq Board := fun g h =>
  decidable_of_iff (eqBoard g h = true) (by
    simp only [eqBoard, List.all_eq_true, beq_iff_eq]
    constructor
    · intro hall
      funext x y
      exact hall (x, y) (by revert x y; decide)
    · rintro rfl p _
      rfl)

/-- Equality of optional results is decided without transporting along the
inner equality proof, so that it evaluates by kernel reduction even when the
inner values are functions such as `Board`. -/
instance (priority := 1001) instDecidableEqOptionK {α : Type} [DecidableEq α] :
    DecidableEq (Option α) := fun a b =>
  match a, b with
  | none, none => isTrue rfl
  | some _, none => isFalse (fun h => Option.noConfusion h)
  | none, some _ => isFalse (fun h => Option.noConfusion h)
  | some x, some y =>
    match decEq x y with
    | isTrue h => isTrue (congrArg some h)
    | isFalse h => isFalse (fun hh => h (Option.some.inj hh))

/-- The fixed candidate order of `find_shortest_path`'s inner loop. -/
def moveOrder : List Move :=
  [Move.LeftToRight, Move.RightToLeft, Move.TopToBottom, Move.BottomToTop]

/-- The `states_discovered.contains_key(&curr_state.board)` test. -/
def discoveredContains (discovered : List Board) (g : Board) : Bool :=
  discovered.any (fun h => eqBoard h g)

/-- Inner loop of `find_shortest_path`: try each remaining candidate move for
one frontier `path`.  For each move the board is reconstructed by replaying
`path` from `start` on a fresh clone.  Returns `some (Sum.inl ans)` for the
function's early `return`, `some (Sum.inr (newPaths, discovered))` to
continue, `none` for a panic inside replay. -/
def tryMoves (start goal : Board) (path : List Move) :
    List Move → List Board → List (List Move) →
    Option ((List Move) ⊕ (List (List Move) × List Board))
  | [], discovered, acc => some (Sum.inr (acc, discovered))
  | mv :: rest, discovered, acc =>
    match perform_moves start path with
    | none => none
    | some (curr, _) =>
      match perform_move curr mv with
      | none => none
      | some (curr2, moved) =>
        if moved then
          if discoveredContains discovered curr2 then
            if eqBoard curr2 goal then some (Sum.inl path)
            else tryMoves start goal path rest discovered acc
          else
            if eqBoard curr2 goal then some (Sum.inl (path ++ [mv]))
            else tryMoves start goal path rest (curr2 :: discovered) (acc ++ [path ++ [mv]])
        else
          if eqBoard curr2 goal then some (Sum.inl path)
          else tryMoves start goal path rest discovered acc

/-- Middle loop of `find_shortest_path`: expand every frontier path of the
current level, threading the shared `new_paths` and `states_discovered`. -/
def expandLevel (start goal : Board) :
    List (List Move) → List Board → List (List Move) →
    Option ((List Move) ⊕ (List (List Move) × List Board))
  | [], discovered, acc => some (Sum.inr (acc, discovered))
  | path :: rest, discovered, acc =>
    match tryMoves start goal path moveOrder discovered acc with
    | none => none
    | some (Sum.inl ans) => some (Sum.inl ans)
    | some (Sum.inr (acc2, disc2)) => expandLevel start goal rest disc2 acc2

/-- Outer loop `for _i in 1..=1000`: one recursion step per level; running
out of fuel models the final `panic!`. -/
def searchLoop (start goal : Board) : Nat → List (List Move) → List Board → Option (List Move)
  | 0, _, _ => none
  | n + 1, paths, discovered =>
    match expandLevel start goal paths discovered [] with
    | none => none
    | some (Sum.inl ans) => some ans
    | some (Sum.inr (newPaths, disc2)) => searchLoop start goal n newPaths disc2

/-- `find_shortest_path`: breadth-first search from the single empty path,
with an empty discovered set and the 1000-level bound. -/
def find_shortest_path (start goal : Board) : Option (List Move) :=
  searchLoop start goal 1000 [[]] []

/-- The board reached from the default one by the single move `TopToBottom`
(tile 12 slides down into the corner). -/
def downBoard : Board := fun x y =>
  ([[some 1, some 5, some 9, some 13],
    [some 2, some 6, some 10, some 14],
    [some 3, some 7, some 11, some 15],
    [some 4, some 8, none, some 12]].getD x.val []).getD y.val none

/-- A valid board whose empty cell is interior, at column 2 row 2: the
default board after `[LeftToRight, TopToBottom]`. -/
def interiorBoard : Board := fun x y =>
  ([[some 1, some 5, some 9, some 13],
    [some 2, some 6, some 10, some 14],
    [some 3, some 7, none, some 11],
    [some 4, some 8, some 12, some 15]].getD x.val []).getD y.val none

/-- Another valid board with interior empty cell (column 2, row 2): the
default board after `[TopToBottom, LeftToRight]`. -/
def interiorBoard2 : Board := fun x y =>
  ([[some 1, some 5, some 9, some 13],
    [some 2, some 6, some 10, some 14],
    [some 3, some 7, none, some 15],
    [some 4, some 8, some 11, some 12]].getD x.val []).getD y.val none

/-- The default board after the rotation `[TopToBottom, LeftToRight,
BottomToTop]` (the goal of the source's second search test). -/
def goalRot : Board := fun x y =>
  ([[some 1, some 5, some 9, some 13],
    [some 2, some 6, some 10, some 14],
    [some 3, some 7, some 15, none],
    [some 4, some 8, some 11, some 12]].getD x.val []).getD y.val none

/-- The swap a legal move performs when the empty cell is at `(x, y)`,
read off the four success branches of `perform_move`. -/
def moveSwap (g : Board) (x y : Fin 4) : Move → Board
  | Move.LeftToRight => swap g x y (x - 1) y
  | Move.RightToLeft => swap g x y (x + 1) y
  | Move.BottomToTop => swap g x y x (y + 1)
  | Move.TopToBottom => swap g x y x (y - 1)

/-- The inverse of each move label (each pull undone by the opposite pull). -/
def invMove : Move → Move
  | Move.LeftToRight => Move.RightToLeft
  | Move.RightToLeft => Move.LeftToRight
  | Move.BottomToTop => Move.TopToBottom
  | Move.TopToBottom => Move.BottomToTop

/-- An invalid board with two empty cells, at `(0, 1)` and `(2, 2)`;
the first one in scan order is `(0, 1)`. -/
def multiEmptyBoard : Board := fun x y =>
  ([[some 1, none, some 2, some 3],
    [some 4, some 5, some 6, some 7],
    [some 8, some 9, none, some 10],
    [some 11, some 12, some 13, some 14]].getD x.val []).getD y.val none

/-- An invalid board with two empty cells, at `(0, 0)` and `(0, 1)`. -/
def twoEmptyBoard : Board := fun x y =>
  ([[none, none, some 1, some 2],
    [some 3, some 4, some 5, some 6],
    [some 7, some 8, some 9, some 10],
    [some 11, some 12, some 13, some 14]].getD x.val []).getD y.val none

/-- `twoEmptyBoard` after a successful `RightToLeft` move: the empty cell
found at `(0, 0)` was swapped with the tile 3 at `(1, 0)`. -/
def twoEmptyBoardAfter : Board := fun x y =>
  ([[some 3, none, some 1, some 2],
    [none, some 4, some 5, some 6],
    [some 7, some 8, some 9, some 10],
    [some 11, some 12, some 13, some 14]].getD x.val []).getD y.val none

/-- A cell value acceptable to the uniqueness scan: empty, or a tile in
`1..=15`. -/
def cellValid : Option Nat → Prop
  | none => True
  | some v => 1 ≤ v ∧ v ≤ 15

/-- The board has exactly one empty cell. -/
def oneEmpty (g : Board) : Prop :=
  ∃ a b : Fin 4, g a b = none ∧ ∀ x y : Fin 4, g x y = none → x = a ∧ y = b

/-- ASCII whitespace, as stripped by `str::trim` on the texts involved. -/
def isWS (c : Char) : Bool :=
  c = ' ' ∨ c = '\t' ∨ c = '\n' ∨ c = '\r'

/-- `str::trim`: drop whitespace from both ends. -/
def trimChars (l : List Char) : List Char :=
  ((l.dropWhile isWS).reverse.dropWhile isWS).reverse

/-- Helper of `splitOnChar`, accumulating the current piece reversed. -/
def splitOnCharAux (c : Char) : List Char → List Char → List (List Char)
  | [], acc => [acc.reverse]
  | d :: rest, acc =>
    if d = c then acc.reverse :: splitOnCharAux c rest []
    else splitOnCharAux c rest (d :: acc)

/-- `str::split(c)`: split at every occurrence of `c`, keeping empty pieces
(`"a||b"` gives three pieces, a leading or trailing `c` an empty piece). -/
def splitOnChar (c : Char) (l : List Char) : List (List Char) :=
  splitOnCharAux c l []

/-- The numeric value of a decimal digit character. -/
def digitOfChar (ch : Char) : Option Nat :=
  if '0' ≤ ch ∧ ch ≤ '9' then some (ch.toNat - 48) else none

/-- Accumulate decimal digits left to right; fails on a non-digit. -/
def parseNatAux : List Char → Nat → Option Nat
  | [], acc => some acc
  | ch :: rest, acc =>
    match digitOfChar ch with
    | none => none
    | some d => parseNatAux rest (acc * 10 + d)

/-- Parse a non-empty, all-digit numeral (no sign handling). -/
def parseNatChars (l : List Char) : Option Nat :=
  if l.isEmpty then none else parseNatAux l 0

/-- Parse an unsigned decimal integer the way Rust's unsigned `from_str`
does, except without a width bound: an optional leading `+`, then one or
more digits. -/
def parseUnsigned (l : List Char) : Option Nat :=
  match l with
  | '+' :: rest => parseNatChars rest
  | _ => parseNatChars l

/-- `str::parse::<u8>()`: an unsigned numeral whose value fits in 8 bits. -/
def parseU8Chars (l : List Char) : Option Nat :=
  match parseUnsigned l with
  | some v => if v ≤ 255 then some v else none
  | none => none

/-- One rendered cell of `Display::fmt`: `format!("| {:>2} ", x)` for a
tile, `"|    "` for the empty cell. -/
def fmtCell : Option Nat → List Char
  | some v =>
    '|' :: ' ' ::
      ((List.replicate (2 - (Nat.toDigits 10 v).length) ' ' ++ Nat.toDigits 10 v) ++ [' '])
  | none => ['|', ' ', ' ', ' ', ' ']

/-- One rendered row `r` (without the final newline): the four cells of the
row followed by the closing `'|'`, reading `board[y][x]` as the source does. -/
def renderRow (g : Board) (r : Fin 4) : List Char :=
  fmtCell (g 0 r) ++ fmtCell (g 1 r) ++ fmtCell (g 2 r) ++ fmtCell (g 3 r) ++ ['|']

/-- `Display::fmt`: the four rows top to bottom, each closed by `"|\n"`. -/
def render (g : Board) : List Char :=
  renderRow g 0 ++ '\n' ::
    (renderRow g 1 ++ '\n' :: (renderRow g 2 ++ '\n' :: (renderRow g 3 ++ ['\n'])))

/-- The trimmed, non-blank lines of the input (`s.lines().map(str::trim)
.filter(|line| !line.is_empty())`; splitting at every newline is equivalent
because blank pieces are filtered and `'\r'` is trimmed). -/
def nonBlankRows (s : List Char) : List (List Char) :=
  ((splitOnChar '\n' s).map trimChars).filter (fun l => !l.isEmpty)

/-- One value slot of `from_str`: empty means the empty cell, otherwise the
token must parse as a `u8`. -/
def parseSlot (e : List Char) : Option (Option Nat) :=
  if e.isEmpty then some none
  else
    match parseU8Chars e with
    | some v => some (some v)
    | none => none

/-- One row of `from_str`: split at `'|'`, trim every piece, require exactly
6 pieces (5 delimiters), and parse pieces 1 to 4 (piece 0, before the first
delimiter, and piece 5, after the last one, are never examined). -/
def parseRowSlots (row : List Char) : Option (Fin 4 → Option Nat) :=
  let elements := (splitOnChar '|' row).map trimChars
  if elements.length = 6 then
    match parseSlot (elements.getD 1 []), parseSlot (elements.getD 2 []),
        parseSlot (elements.getD 3 []), parseSlot (elements.getD 4 []) with
    | some a, some b, some c, some d => some ![a, b, c, d]
    | _, _, _, _ => none
  else none

/-- `GameState::from_str`: require exactly 4 non-blank lines, parse each
row's slots into `matrix[col][row]`, and validate with `all_tiles_unique`. -/
def from_str (s : List Char) : Option Board :=
  let rows := nonBlankRows s
  if rows.length = 4 then
    match parseRowSlots (rows.getD 0 []), parseRowSlots (rows.getD 1 []),
        parseRowSlots (rows.getD 2 []), parseRowSlots (rows.getD 3 []) with
    | some r0, some r1, some r2, some r3 =>
      let g : Board := fun x y => ![r0, r1, r2, r3] y x
      if all_tiles_unique g then some g else none
    | _, _, _, _ => none
  else none

/-- The rendered default board with the extra character `x` after the final
delimiter of the first line. -/
def junkStr : List Char :=
  "|  1 |  2 |  3 |  4 |x\n|  5 |  6 |  7 |  8 |\n|  9 | 10 | 11 | 12 |\n| 13 | 14 | 15 |    |\n".toList

/-- Modelled from the spec: the amended acceptance condition for parsing.
The input must have exactly 4 non-blank lines; every line must contain
exactly 5 `'|'` characters and each of its 4 delimited interior slots must
be blank or parse as an unsigned integer; and the resulting grid (blank
slots empty, numeric slots their value) must pass the uniqueness/range
check.  Content before the first and after the last delimiter is ignored. -/
def specAccepts (s : List Char) : Prop :=
  (nonBlankRows s).length = 4 ∧
  (∀ row ∈ nonBlankRows s, row.count '|' = 5 ∧
    ∀ slot ∈ (((splitOnChar '|' row).map trimChars).drop 1).take 4,
      slot.isEmpty = true ∨ (parseUnsigned slot).isSome = true) ∧
  all_tiles_unique (fun x y =>
    parseUnsigned
      (((splitOnChar '|' ((nonBlankRows s).getD y [])).map trimChars).getD
        (x.val + 1) [])) = true

/-- The interior of a rendered cell, after its leading delimiter. -/
def cellBody : Option Nat → List Char
  | some v =>
    ' ' :: ((List.replicate (2 - (Nat.toDigits 10 v).length) ' ' ++ Nat.toDigits 10 v) ++ [' '])
  | none => [' ', ' ', ' ', ' ']

/-- The board assembled by `from_str` from the parsed rows (empty where a
row failed to parse). -/
def codeGrid (s : List Char) : Board := fun x y =>
  ((parseRowSlots ((nonBlankRows s).getD y.val [])).getD (fun _ => none)) x

section Lemmas

/-- A rendered cell is its delimiter followed by its body. -/
theorem fmtCell_eq (o : Option Nat) : fmtCell o = '|' :: cellBody o := by
  cases o <;> rfl

/-- Splitting a list free of the separator yields that list alone. -/
theorem splitOnCharAux_not_mem (c : Char) :
    ∀ (l acc : List Char), c ∉ l → splitOnCharAux c l acc = [acc.reverse ++ l] := by
  intro l
  induction l with
  | nil => intro acc _; simp [splitOnCharAux]
  | cons d rest ih =>
    intro acc h
    have hd : ¬d = c := fun hc => h (by simp [hc])
    have hr : c ∉ rest := fun hc => h (by simp [hc])
    rw [splitOnCharAux, if_neg hd, ih (d :: acc) hr]
    simp

/-- `splitOnChar` on a separator-free list. -/
theorem splitOnChar_not_mem (c : Char) (l : List Char) (h : c ∉ l) :
    splitOnChar c l = [l] := by
  rw [splitOnChar, splitOnCharAux_not_mem c l [] h]
  simp

/-- Splitting peels off a separator-free prefix before a separator. -/
theorem splitOnCharAux_append (c : Char) :
    ∀ (l1 : List Char) (l2 acc : List Char), c ∉ l1 →
      splitOnCharAux c (l1 ++ c :: l2) acc =
        (acc.reverse ++ l1) :: splitOnChar c l2 := by
  intro l1
  induction l1 with
  | nil =>
    intro l2 acc _
    rw [List.nil_append, splitOnCharAux, if_pos rfl]
    simp [splitOnChar]
  | cons d rest ih =>
    intro l2 acc h
    have hd : ¬d = c := fun hc => h (by simp [hc])
    have hr : c ∉ rest := fun hc => h (by simp [hc])
    rw [List.cons_append, splitOnCharAux, if_neg hd, ih l2 (d :: acc) hr]
    simp

/-- `splitOnChar` of `l1 ++ c :: l2` with `c ∉ l1`. -/
theorem splitOnChar_append (c : Char) (l1 l2 : List Char) (h : c ∉ l1) :
    splitOnChar c (l1 ++ c :: l2) = l1 :: splitOnChar c l2 := by
  rw [splitOnChar, splitOnCharAux_append c l1 l2 [] h]
  simp

/-- `splitOnChar` with a leading separator. -/
theorem splitOnChar_cons_self (c : Char) (l : List Char) :
    splitOnChar c (c :: l) = [] :: splitOnChar c l := by
  have := splitOnChar_append c [] l (by simp)
  simpa using this

/-- The number of split pieces is one more than the separator count. -/
theorem splitOnCharAux_length (c : Char) :
    ∀ (l acc : List Char),
      (splitOnCharAux c l acc).length = l.count c + 1 := by
  intro l
  induction l with
  | nil => intro acc; simp [splitOnCharAux]
  | cons d rest ih =>
    intro acc
    by_cases hd : d = c
    · subst hd
      rw [splitOnCharAux, if_pos rfl]
      simp [ih, List.count_cons]
    · rw [splitOnCharAux, if_neg hd, ih (d :: acc)]
      simp [List.count_cons, hd]

/-- Piece count of `splitOnChar`. -/
theorem splitOnChar_length (c : Char) (l : List Char) :
    (splitOnChar c l).length = l.count c + 1 :=
  splitOnCharAux_length c l []

/-- `trimChars` leaves a list alone when neither end is whitespace. -/
theorem trimChars_eq_self (l : List Char)
    (h1 : ∀ ch, l.head? = some ch → isWS ch = false)
    (h2 : ∀ ch, l.getLast? = some ch → isWS ch = false) :
    trimChars l = l := by
  have hdrop : l.dropWhile isWS = l := by
    cases l with
    | nil => rfl
    | cons a t => rw [List.dropWhile_cons, h1 a rfl]; simp
  have hdrop2 : l.reverse.dropWhile isWS = l.reverse := by
    cases hrev : l.reverse with
    | nil => rfl
    | cons b tb =>
      have hb : l.getLast? = some b := by
        rw [← List.head?_reverse, hrev]
        rfl
      rw [List.dropWhile_cons, h2 b hb]
      simp
  rw [trimChars, hdrop, hdrop2, List.reverse_reverse]

/-- The rendered body of the empty cell holds no delimiter or newline and
parses back (after trimming) to the empty cell. -/
theorem cellBody_facts_none :
    ('|' ∉ cellBody none ∧ '\n' ∉ cellBody none) ∧
    parseSlot (trimChars (cellBody none)) = some none := by decide

/-- The rendered body of any tile `1..=15` holds no delimiter or newline and
parses back (after trimming) to that tile. -/
theorem cellBody_facts_some : ∀ v : Nat, v < 16 → 1 ≤ v →
    ('|' ∉ cellBody (some v) ∧ '\n' ∉ cellBody (some v)) ∧
    parseSlot (trimChars (cellBody (some v))) = some (some v) := by decide

/-- The two previous facts for an arbitrary valid cell. -/
theorem cellBody_facts (o : Option Nat) (h : cellValid o) :
    ('|' ∉ cellBody o ∧ '\n' ∉ cellBody o) ∧
    parseSlot (trimChars (cellBody o)) = some o := by
  cases o with
  | none => exact cellBody_facts_none
  | some v =>
    obtain ⟨h1, h2⟩ := h
    exact cellBody_facts_some v (by omega) h1

/-- A rendered row, written as delimiters alternating with cell bodies. -/
theorem renderRow_decomp (g : Board) (r : Fin 4) :
    renderRow g r = '|' :: (cellBody (g 0 r) ++ '|' ::
      (cellBody (g 1 r) ++ '|' :: (cellBody (g 2 r) ++ '|' ::
        (cellBody (g 3 r) ++ ['|'])))) := by
  rw [renderRow, fmtCell_eq, fmtCell_eq, fmtCell_eq, fmtCell_eq]
  simp [List.append_assoc]

/-- Splitting a rendered row of valid cells at its delimiters yields an
empty piece, the four cell bodies, and an empty piece. -/
theorem splitOnChar_renderRow (g : Board) (r : Fin 4)
    (hv : ∀ x : Fin 4, cellValid (g x r)) :
    splitOnChar '|' (renderRow g r) =
      [[], cellBody (g 0 r), cellBody (g 1 r), cellBody (g 2 r),
        cellBody (g 3 r), []] := by
  have h0 := (cellBody_facts _ (hv 0)).1.1
  have h1 := (cellBody_facts _ (hv 1)).1.1
  have h2 := (cellBody_facts _ (hv 2)).1.1
  have h3 := (cellBody_facts _ (hv 3)).1.1
  rw [renderRow_decomp, splitOnChar_cons_self, splitOnChar_append _ _ _ h0,
    splitOnChar_append _ _ _ h1, splitOnChar_append _ _ _ h2,
    show (cellBody (g 3 r) ++ ['|'] : List Char) = cellBody (g 3 r) ++ '|' :: []
      from rfl,
    splitOnChar_append _ _ _ h3]
  rfl

/-- A rendered row is unchanged by trimming (it starts and ends with the
delimiter). -/
theorem trim_renderRow (g : Board) (r : Fin 4) :
    trimChars (renderRow g r) = renderRow g r := by
  apply trimChars_eq_self
  · intro ch h
    rw [renderRow_decomp] at h
    simp only [List.head?_cons, Option.some.injEq] at h
    subst h
    decide
  · intro ch h
    rw [renderRow, List.getLast?_concat] at h
    simp only [Option.some.injEq] at h
    subst h
    decide

/-- No newline occurs in a rendered row of valid cells. -/
theorem newline_not_mem_renderRow (g : Board) (r : Fin 4)
    (hv : ∀ x : Fin 4, cellValid (g x r)) : '\n' ∉ renderRow g r := by
  have h0 := (cellBody_facts _ (hv 0)).1.2
  have h1 := (cellBody_facts _ (hv 1)).1.2
  have h2 := (cellBody_facts _ (hv 2)).1.2
  have h3 := (cellBody_facts _ (hv 3)).1.2
  rw [renderRow_decomp]
  intro hmem
  simp only [List.mem_cons, List.mem_append, List.mem_singleton] at hmem
  rcases hmem with h | h | h | h | h | h | h | h | h <;>
    first
      | exact absurd h (by decide)
      | exact h0 h
      | exact h1 h
      | exact h2 h
      | exact h3 h

/-- The non-blank lines of a rendered valid board are its four rendered
rows. -/
theorem nonBlankRows_render (g : Board) (hv : ∀ x y : Fin 4, cellValid (g x y)) :
    nonBlankRows (render g) =
      [renderRow g 0, renderRow g 1, renderRow g 2, renderRow g 3] := by
  have hnl : ∀ r : Fin 4, '\n' ∉ renderRow g r :=
    fun r => newline_not_mem_renderRow g r (fun x => hv x r)
  have hne : ∀ r : Fin 4, (renderRow g r).isEmpty = false := by
    intro r
    rw [renderRow_decomp]
    rfl
  rw [nonBlankRows, render,
    splitOnChar_append _ _ _ (hnl 0), splitOnChar_append _ _ _ (hnl 1),
    splitOnChar_append _ _ _ (hnl 2),
    show (renderRow g 3 ++ ['\n'] : List Char) = renderRow g 3 ++ '\n' :: []
      from rfl,
    splitOnChar_append _ _ _ (hnl 3)]
  simp only [splitOnChar, splitOnCharAux, List.map_cons, List.map_nil,
    trim_renderRow, List.reverse_nil]
  simp [List.filter, hne, trimChars]

/-- Parsing a rendered row of valid cells recovers exactly those cells. -/
theorem parseRowSlots_renderRow (g : Board) (r : Fin 4)
    (hv : ∀ x : Fin 4, cellValid (g x r)) :
    parseRowSlots (renderRow g r) = some (fun x => g x r) := by
  have hsplit := splitOnChar_renderRow g r hv
  simp only [parseRowSlots, hsplit, List.map_cons, List.map_nil]
  rw [if_pos (by simp)]
  simp only [List.getD_cons_zero, List.getD_cons_succ]
  rw [(cellBody_facts _ (hv 0)).2, (cellBody_facts _ (hv 1)).2,
    (cellBody_facts _ (hv 2)).2, (cellBody_facts _ (hv 3)).2]
  show some ![g 0 r, g 1 r, g 2 r, g 3 r] = some (fun x => g x r)
  congr 1
  funext x
  fin_cases x <;> rfl

end Lemmas

section Lemmas

/-- Reading the first swapped cell yields the other cell's old value. -/
theorem swap_apply_fst (g : Board) (x1 y1 x2 y2 : Fin 4)
    (hne : ¬(x1 = x2 ∧ y1 = y2)) : swap g x1 y1 x2 y2 x1 y1 = g x2 y2 := by
  simp [swap, setCell, hne]

/-- Reading the second swapped cell yields the first cell's old value. -/
theorem swap_apply_snd (g : Board) (x1 y1 x2 y2 : Fin 4) :
    swap g x1 y1 x2 y2 x2 y2 = g x1 y1 := by
  simp [swap, setCell]

/-- Cells other than the two swapped ones are untouched. -/
theorem swap_apply_other (g : Board) (x1 y1 x2 y2 i j : Fin 4)
    (h1 : ¬(i = x1 ∧ j = y1)) (h2 : ¬(i = x2 ∧ j = y2)) :
    swap g x1 y1 x2 y2 i j = g i j := by
  simp [swap, setCell, h1, h2]

/-- Swapping the same two distinct cells back restores the board. -/
theorem swap_swap (g : Board) (x1 y1 x2 y2 : Fin 4)
    (hne : ¬(x1 = x2 ∧ y1 = y2)) :
    swap (swap g x1 y1 x2 y2) x2 y2 x1 y1 = g := by
  have hne' : ¬(x2 = x1 ∧ y2 = y1) := fun hc => hne ⟨hc.1.symm, hc.2.symm⟩
  funext i j
  by_cases h1 : i = x1 ∧ j = y1
  · obtain ⟨rfl, rfl⟩ := h1
    rw [swap_apply_snd, swap_apply_snd]
  · by_cases h2 : i = x2 ∧ j = y2
    · obtain ⟨rfl, rfl⟩ := h2
      rw [swap_apply_fst _ _ _ _ _ hne', swap_apply_fst _ _ _ _ _ hne]
    · rw [swap_apply_other _ _ _ _ _ _ _ h2 h1, swap_apply_other _ _ _ _ _ _ _ h1 h2]

/-- `List.find?` returns `some a` exactly when the list splits at `a` with
the predicate failing on everything before `a` and holding at `a`. -/
theorem find?_eq_some_split {α : Type} (p : α → Bool) (a : α) :
    ∀ l : List α, l.find? p = some a ↔
      ∃ l1 l2, l = l1 ++ a :: l2 ∧ p a = true ∧ ∀ x ∈ l1, p x = false := by
  intro l
  induction l with
  | nil =>
    simp [List.find?]
  | cons h t ih =>
    cases hp : p h with
    | true =>
      simp only [List.find?, hp]
      constructor
      · intro he
        rw [Option.some.injEq] at he
        subst he
        exact ⟨[], t, rfl, hp, by simp⟩
      · rintro ⟨l1, l2, heq, hpa, hl1⟩
        cases l1 with
        | nil =>
          simp only [List.nil_append, List.cons_append, List.cons.injEq] at heq
          obtain ⟨rfl, -⟩ := heq
          rfl
        | cons b t1 =>
          simp only [List.nil_append, List.cons_append, List.cons.injEq] at heq
          obtain ⟨rfl, -⟩ := heq
          exact absurd hp (by simp [hl1 h (by simp)])
    | false =>
      simp only [List.find?, hp]
      rw [ih]
      constructor
      · rintro ⟨l1, l2, rfl, hpa, hl1⟩
        refine ⟨h :: l1, l2, rfl, hpa, ?_⟩
        intro x hx
        rcases List.mem_cons.mp hx with rfl | hx
        · exact hp
        · exact hl1 x hx
      · rintro ⟨l1, l2, heq, hpa, hl1⟩
        cases l1 with
        | nil =>
          simp only [List.nil_append, List.cons_append, List.cons.injEq] at heq
          obtain ⟨rfl, -⟩ := heq
          exact absurd hpa (by simp [hp])
        | cons b t1 =>
          simp only [List.nil_append, List.cons_append, List.cons.injEq] at heq
          obtain ⟨rfl, rfl⟩ := heq
          exact ⟨t1, l2, rfl, hpa, fun x hx => hl1 x (by simp [hx])⟩

/-- Two splits of a list at the same element agree on the prefix, provided
the element occurs in neither prefix. -/
theorem split_eq_of_not_mem {α : Type} :
    ∀ {l1 l1' : List α} {l2 l2' : List α} {a : α}, a ∉ l1 → a ∉ l1' →
      l1 ++ a :: l2 = l1' ++ a :: l2' → l1 = l1' := by
  intro l1
  induction l1 with
  | nil =>
    intro l1' l2 l2' a _ ha' heq
    cases l1' with
    | nil => rfl
    | cons b t' =>
      simp only [List.nil_append, List.cons_append, List.cons.injEq] at heq
      obtain ⟨rfl, -⟩ := heq
      exact absurd (by simp : a ∈ a :: t') ha'
  | cons b t ih =>
    intro l1' l2 l2' a ha ha' heq
    cases l1' with
    | nil =>
      simp only [List.nil_append, List.cons_append, List.cons.injEq] at heq
      obtain ⟨rfl, -⟩ := heq
      exact absurd (by simp : b ∈ b :: t) ha
    | cons b' t' =>
      simp only [List.nil_append, List.cons_append, List.cons.injEq] at heq
      obtain ⟨rfl, h2⟩ := heq
      rw [ih (fun hm => ha (by simp [hm])) (fun hm => ha' (by simp [hm])) h2]

/-- Every position occurs in the scan list. -/
theorem mem_scanList (p : Fin 4 × Fin 4) : p ∈ scanList := by
  revert p; decide

/-- The scan list has no duplicate positions. -/
theorem scanList_nodup : scanList.Nodup := by decide

/-- The scan list splits at each position `(a, b)` after `4a + b` entries. -/
theorem scanList_split (a b : Fin 4) :
    scanList = scanList.take (4 * a.val + b.val) ++
      (a, b) :: scanList.drop (4 * a.val + b.val + 1) := by
  revert a b; decide

/-- The entries before position `(a, b)` in the scan list are exactly the
positions in an earlier column, or in the same column and an earlier row. -/
theorem mem_scanList_take (a b x y : Fin 4) :
    (x, y) ∈ scanList.take (4 * a.val + b.val) ↔
      (x < a ∨ (x = a ∧ y < b)) := by
  revert a b x y; decide

/-- A cell is reported non-empty by `isNone = false` exactly when it is not
`none`. -/
theorem isNone_false_iff (o : Option Nat) : (o.isNone = false) ↔ o ≠ none := by
  cases o <;> simp

/-- `empty_loc` fails exactly when no cell of the board is empty. -/
theorem empty_loc_eq_none_iff (g : Board) :
    empty_loc g = none ↔ ∀ x y : Fin 4, g x y ≠ none := by
  rw [empty_loc, List.find?_eq_none]
  constructor
  · intro hall x y
    simpa [Option.isNone_iff_eq_none] using hall (x, y) (mem_scanList (x, y))
  · intro hne p _
    simpa [Option.isNone_iff_eq_none] using hne p.1 p.2

/-- `empty_loc` returns `(x, y)` exactly when that cell is empty and every
cell earlier in scan order (earlier column, or same column and earlier row)
is occupied. -/
theorem empty_loc_eq_some_iff (g : Board) (x y : Fin 4) :
    empty_loc g = some (x, y) ↔
      (g x y = none ∧ ∀ x' y' : Fin 4,
        (x' < x ∨ (x' = x ∧ y' < y)) → g x' y' ≠ none) := by
  rw [empty_loc, find?_eq_some_split]
  constructor
  · rintro ⟨l1, l2, hsplit, hpa, hl1⟩
    have hnone : g x y = none := by simpa [Option.isNone_iff_eq_none] using hpa
    refine ⟨hnone, ?_⟩
    intro x' y' hord
    have hnotmem1 : (x, y) ∉ l1 := fun hm => by simp [hl1 _ hm] at hpa
    have hnotmem2 : (x, y) ∉ scanList.take (4 * x.val + y.val) := by
      rw [mem_scanList_take]
      simp
    have htake : l1 = scanList.take (4 * x.val + y.val) :=
      split_eq_of_not_mem hnotmem1 hnotmem2
        (hsplit.symm.trans (scanList_split x y))
    have hmem : (x', y') ∈ l1 := by
      rw [htake, mem_scanList_take]
      exact hord
    exact (isNone_false_iff _).mp (hl1 _ hmem)
  · rintro ⟨hnone, hlt⟩
    refine ⟨scanList.take (4 * x.val + y.val),
      scanList.drop (4 * x.val + y.val + 1), scanList_split x y,
      by simpa [Option.isNone_iff_eq_none] using hnone, ?_⟩
    rintro ⟨qa, qb⟩ hq
    rw [mem_scanList_take] at hq
    exact (isNone_false_iff _).mpr (hlt qa qb hq)

/-- Splitting a move list: `perform_moves` processes `ms ++ ns` exactly as
`ms` then `ns`, adding the success counts; in particular failures inside
`ms` never prevent the moves of `ns` from being attempted. -/
theorem perform_moves_append (g : Board) (ms ns : List Move) :
    perform_moves g (ms ++ ns) =
      (perform_moves g ms).bind (fun p =>
        (perform_moves p.1 ns).map (fun q => (q.1, p.2 + q.2))) := by
  induction ms generalizing g with
  | nil =>
    cases h : perform_moves g ns with
    | none => simp [perform_moves, h]
    | some q => simp [perform_moves, h]
  | cons m rest ih =>
    cases hm : perform_move g m with
    | none => simp [perform_moves, hm]
    | some p =>
      obtain ⟨g', moved⟩ := p
      cases h1 : perform_moves g' rest with
      | none => simp [perform_moves, hm, ih, h1]
      | some p1 =>
        obtain ⟨g1, c1⟩ := p1
        cases h2 : perform_moves g1 ns with
        | none => simp [perform_moves, hm, ih, h1, h2]
        | some p2 =>
          obtain ⟨g2, c2⟩ := p2
          simp only [List.cons_append, perform_moves, hm, List.append_eq, ih, h1, h2,
            Option.bind, Option.map]
          cases moved
          · simp
          · simp
            omega

/-- The tracker scan succeeds exactly when every value is valid, the tracker
keys (0 for the empty cell, the tile value otherwise) are pairwise distinct,
and none of them was already marked in the tracker. -/
theorem uniqueScan_iff (l : List (Option Nat)) (seen : Nat → Bool) :
    uniqueScan l seen = true ↔
      ((∀ o ∈ l, cellValid o) ∧ (l.map (fun o => o.getD 0)).Nodup ∧
        ∀ o ∈ l, seen (o.getD 0) = false) := by
  induction l generalizing seen with
  | nil => simp [uniqueScan]
  | cons o rest ih =>
    cases o with
    | none =>
      cases hs : seen 0 with
      | true =>
        simp only [uniqueScan, hs, if_true]
        constructor
        · intro h
          exact absurd h (by simp)
        · rintro ⟨-, -, h3⟩
          have h0 := h3 none (by simp)
          simp [hs] at h0
      | false =>
        simp only [uniqueScan, hs, Bool.false_eq_true, if_false]
        rw [ih]
        constructor
        · rintro ⟨h1, h2, h3⟩
          refine ⟨?_, ?_, ?_⟩
          · intro o ho
            rcases List.mem_cons.mp ho with rfl | ho'
            · trivial
            · exact h1 o ho'
          · simp only [List.map_cons, List.nodup_cons]
            refine ⟨?_, h2⟩
            intro hmem
            obtain ⟨o, ho, hko⟩ := List.mem_map.mp hmem
            have h0 := h3 o ho
            rw [hko] at h0
            simp at h0
          · intro o ho
            rcases List.mem_cons.mp ho with rfl | ho'
            · simpa using hs
            · have h0 := h3 o ho'
              by_cases hk : o.getD 0 = 0
              · rw [hk]
                exact hs
              · simpa [hk] using h0
        · rintro ⟨h1, h2, h3⟩
          simp only [List.map_cons, List.nodup_cons] at h2
          refine ⟨fun o ho => h1 o (List.mem_cons_of_mem _ ho), h2.2, ?_⟩
          intro o ho
          by_cases hk : o.getD 0 = 0
          · exact absurd (List.mem_map.mpr ⟨o, ho, hk⟩) (by simpa using h2.1)
          · simpa [hk] using h3 o (List.mem_cons_of_mem _ ho)
    | some v =>
      by_cases hr : 15 < v ∨ v < 1
      · simp only [uniqueScan, if_pos hr]
        constructor
        · intro h
          exact absurd h (by simp)
        · rintro ⟨h1, -, -⟩
          have hv : cellValid (some v) := h1 (some v) (by simp)
          obtain ⟨hv1, hv2⟩ := hv
          exact absurd hr (by omega)
      · have hv1 : 1 ≤ v := by omega
        have hv2 : v ≤ 15 := by omega
        cases hs : seen v with
        | true =>
          simp only [uniqueScan, if_neg hr, hs, if_true]
          constructor
          · intro h
            exact absurd h (by simp)
          · rintro ⟨-, -, h3⟩
            have h0 := h3 (some v) (by simp)
            simp [hs] at h0
        | false =>
          simp only [uniqueScan, if_neg hr, hs, Bool.false_eq_true, if_false]
          rw [ih]
          constructor
          · rintro ⟨h1, h2, h3⟩
            refine ⟨?_, ?_, ?_⟩
            · intro o ho
              rcases List.mem_cons.mp ho with rfl | ho'
              · exact ⟨hv1, hv2⟩
              · exact h1 o ho'
            · simp only [List.map_cons, List.nodup_cons]
              refine ⟨?_, h2⟩
              intro hmem
              obtain ⟨o, ho, hko⟩ := List.mem_map.mp hmem
              have h0 := h3 o ho
              rw [hko] at h0
              simp only [Option.getD_some] at h0 ⊢
              simp at h0
            · intro o ho
              rcases List.mem_cons.mp ho with rfl | ho'
              · simpa using hs
              · have h0 := h3 o ho'
                by_cases hk : o.getD 0 = v
                · rw [hk]
                  exact hs
                · simpa [hk] using h0
          · rintro ⟨h1, h2, h3⟩
            simp only [List.map_cons, List.nodup_cons] at h2
            refine ⟨fun o ho => h1 o (List.mem_cons_of_mem _ ho), h2.2, ?_⟩
            intro o ho
            by_cases hk : o.getD 0 = v
            · exact absurd (List.mem_map.mpr ⟨o, ho, hk⟩) (by simpa using h2.1)
            · simpa [hk] using h3 o (List.mem_cons_of_mem _ ho)

/-- `all_tiles_unique` holds exactly when every cell is empty or a tile in
`1..=15` and no two cells share a tracker key. -/
theorem all_tiles_unique_iff (g : Board) :
    all_tiles_unique g = true ↔
      ((∀ o ∈ cellsList g, cellValid o) ∧
        ((cellsList g).map (fun o => o.getD 0)).Nodup) := by
  rw [all_tiles_unique, uniqueScan_iff]
  simp

/-- Swapping two distinct cells permutes the list of cell values. -/
theorem cellsList_swap_perm (g : Board) (x1 y1 x2 y2 : Fin 4)
    (hne : ¬(x1 = x2 ∧ y1 = y2)) :
    (cellsList (swap g x1 y1 x2 y2)).Perm (cellsList g) := by
  have hpq : ((x1, y1) : Fin 4 × Fin 4) ≠ (x2, y2) := by
    simpa [Prod.ext_iff] using hne
  rw [← Multiset.coe_eq_coe]
  show (↑(scanList.map fun p => swap g x1 y1 x2 y2 p.1 p.2) : Multiset (Option Nat)) =
    ↑(scanList.map fun p => g p.1 p.2)
  rw [← Multiset.map_coe, ← Multiset.map_coe]
  set s : Multiset (Fin 4 × Fin 4) := (↑scanList : Multiset (Fin 4 × Fin 4)) with hsdef
  have hnd : s.Nodup := Multiset.coe_nodup.mpr scanList_nodup
  have hps : ((x1, y1) : Fin 4 × Fin 4) ∈ s := Multiset.mem_coe.mpr (mem_scanList _)
  have hqs : ((x2, y2) : Fin 4 × Fin 4) ∈ s := Multiset.mem_coe.mpr (mem_scanList _)
  have hqe : ((x2, y2) : Fin 4 × Fin 4) ∈ s.erase (x1, y1) :=
    (Multiset.mem_erase_of_ne hpq.symm).mpr hqs
  set t := (s.erase (x1, y1)).erase (x2, y2) with htdef
  have hs2 : s = (x1, y1) ::ₘ (x2, y2) ::ₘ t := by
    rw [htdef]
    rw [Multiset.cons_erase hqe, Multiset.cons_erase hps]
  have hcount := Multiset.nodup_iff_count_le_one.mp hnd
  have hpt : ((x1, y1) : Fin 4 × Fin 4) ∉ t := by
    have hc := hcount (x1, y1)
    rw [hs2] at hc
    simp only [Multiset.count_cons_self, Multiset.count_cons_of_ne hpq] at hc
    exact Multiset.count_eq_zero.mp (by omega)
  have hqt : ((x2, y2) : Fin 4 × Fin 4) ∉ t := by
    have hc := hcount (x2, y2)
    rw [hs2] at hc
    simp only [Multiset.count_cons_self, Multiset.count_cons_of_ne hpq.symm] at hc
    exact Multiset.count_eq_zero.mp (by omega)
  have hmapt : Multiset.map (fun p : Fin 4 × Fin 4 => swap g x1 y1 x2 y2 p.1 p.2) t =
      Multiset.map (fun p : Fin 4 × Fin 4 => g p.1 p.2) t := by
    apply Multiset.map_congr rfl
    intro r hr
    have hr1 : ¬(r.1 = x1 ∧ r.2 = y1) := by
      intro hc
      exact hpt (by rwa [show r = (x1, y1) from Prod.ext hc.1 hc.2] at hr)
    have hr2 : ¬(r.1 = x2 ∧ r.2 = y2) := by
      intro hc
      exact hqt (by rwa [show r = (x2, y2) from Prod.ext hc.1 hc.2] at hr)
    exact swap_apply_other g x1 y1 x2 y2 r.1 r.2 hr1 hr2
  rw [hs2, Multiset.map_cons, Multiset.map_cons, Multiset.map_cons, Multiset.map_cons]
  simp only []
  rw [hmapt, swap_apply_fst g x1 y1 x2 y2 hne, swap_apply_snd g x1 y1 x2 y2]
  exact Multiset.cons_swap _ _ _

/-- Swapping two distinct cells does not change the result of the
uniqueness check. -/
theorem all_tiles_unique_swap (g : Board) (x1 y1 x2 y2 : Fin 4)
    (hne : ¬(x1 = x2 ∧ y1 = y2)) :
    all_tiles_unique (swap g x1 y1 x2 y2) = all_tiles_unique g := by
  have hperm := cellsList_swap_perm g x1 y1 x2 y2 hne
  have hiff : all_tiles_unique (swap g x1 y1 x2 y2) = true ↔
      all_tiles_unique g = true := by
    rw [all_tiles_unique_iff, all_tiles_unique_iff]
    constructor
    · rintro ⟨h1, h2⟩
      exact ⟨fun o ho => h1 o (hperm.mem_iff.mpr ho), ((hperm.map _).nodup_iff).mp h2⟩
    · rintro ⟨h1, h2⟩
      exact ⟨fun o ho => h1 o (hperm.mem_iff.mp ho), ((hperm.map _).nodup_iff).mpr h2⟩
  cases hbs : all_tiles_unique (swap g x1 y1 x2 y2) <;>
    cases hbg : all_tiles_unique g <;> simp_all

/-- Coordinate arithmetic facts used by the move analysis. -/
theorem fin4_facts :
    ∀ a : Fin 4,
      (a ≠ 0 → (a ≠ a - 1 ∧ a - 1 ≠ 3 ∧ a - 1 + 1 = a)) ∧
      (a ≠ 3 → (a ≠ a + 1 ∧ a + 1 ≠ 0 ∧ a + 1 - 1 = a)) := by decide

/-- The success count of `perform_moves` never exceeds the number of moves. -/
theorem perform_moves_count_le (ms : List Move) :
    ∀ (g g' : Board) (c : Nat), perform_moves g ms = some (g', c) →
      c ≤ ms.length := by
  induction ms with
  | nil =>
    intro g g' c h
    simp only [perform_moves, Option.some.injEq, Prod.mk.injEq] at h
    omega
  | cons m rest ih =>
    intro g g' c h
    simp only [perform_moves] at h
    cases hm : perform_move g m with
    | none => simp only [hm] at h; exact Option.noConfusion h
    | some p =>
      obtain ⟨g1, moved⟩ := p
      simp only [hm] at h
      cases h1 : perform_moves g1 rest with
      | none => simp only [h1] at h; exact Option.noConfusion h
      | some p1 =>
        obtain ⟨g2, c1⟩ := p1
        simp only [h1, Option.some.injEq, Prod.mk.injEq] at h
        have := ih g1 g2 c1 h1
        obtain ⟨-, rfl⟩ := h
        cases moved <;> simp <;> omega

/-- A board whose unique empty cell is `(a, b)` has `empty_loc` equal to
`(a, b)`. -/
theorem oneEmpty_empty_loc (g : Board) (a b : Fin 4) (hn : g a b = none)
    (hu : ∀ x y : Fin 4, g x y = none → x = a ∧ y = b) :
    empty_loc g = some (a, b) := by
  rw [empty_loc_eq_some_iff]
  refine ⟨hn, ?_⟩
  intro x' y' hord hc
  obtain ⟨rfl, rfl⟩ := hu x' y' hc
  rcases hord with h | ⟨-, h⟩ <;> exact absurd h (lt_irrefl _)

/-- Swapping the unique empty cell to a distinct position keeps the board
one-empty, with the empty cell at the new position. -/
theorem oneEmpty_swap (g : Board) (a b a' b' : Fin 4)
    (hn : g a b = none) (hu : ∀ x y : Fin 4, g x y = none → x = a ∧ y = b)
    (hne : ¬(a = a' ∧ b = b')) :
    (swap g a b a' b' a' b' = none) ∧
    (∀ x y : Fin 4, swap g a b a' b' x y = none → x = a' ∧ y = b') := by
  have hga' : g a' b' ≠ none := by
    intro hc
    exact hne ⟨(hu a' b' hc).1.symm, (hu a' b' hc).2.symm⟩
  refine ⟨by rw [swap_apply_snd]; exact hn, ?_⟩
  intro x y hxy
  by_cases h1 : x = a' ∧ y = b'
  · exact h1
  · by_cases h2 : x = a ∧ y = b
    · obtain ⟨rfl, rfl⟩ := h2
      rw [swap_apply_fst _ _ _ _ _ hne] at hxy
      exact absurd hxy hga'
    · rw [swap_apply_other _ _ _ _ _ _ _ h2 h1] at hxy
      exact absurd (hu x y hxy) h2

/-- On a board with exactly one empty cell, a successful move keeps the
board one-empty and is undone by the inverse move. -/
theorem move_inverse (g g' : Board) (m : Move) (hone : oneEmpty g)
    (hmv : perform_move g m = some (g', true)) :
    oneEmpty g' ∧ perform_move g' (invMove m) = some (g, true) := by
  obtain ⟨a, b, hn, hu⟩ := hone
  have hloc : empty_loc g = some (a, b) := oneEmpty_empty_loc g a b hn hu
  cases m with
  | LeftToRight =>
    simp only [perform_move, hloc] at hmv
    by_cases ha : a = 0
    · rw [if_pos ha] at hmv
      simp at hmv
    · rw [if_neg ha, Option.some.injEq, Prod.mk.injEq] at hmv
      obtain ⟨rfl, -⟩ := hmv
      have hne : ¬(a = a - 1 ∧ b = b) := fun hc => ((fin4_facts a).1 ha).1 hc.1
      obtain ⟨hn', hu'⟩ := oneEmpty_swap g a b (a - 1) b hn hu hne
      have hloc' : empty_loc (swap g a b (a - 1) b) = some (a - 1, b) :=
        oneEmpty_empty_loc _ _ _ hn' hu'
      refine ⟨⟨a - 1, b, hn', hu'⟩, ?_⟩
      simp only [invMove, perform_move, hloc']
      rw [if_neg ((fin4_facts a).1 ha).2.1, ((fin4_facts a).1 ha).2.2,
        swap_swap g a b (a - 1) b hne]
  | RightToLeft =>
    simp only [perform_move, hloc] at hmv
    by_cases ha : a = 3
    · rw [if_pos ha] at hmv
      simp at hmv
    · rw [if_neg ha, Option.some.injEq, Prod.mk.injEq] at hmv
      obtain ⟨rfl, -⟩ := hmv
      have hne : ¬(a = a + 1 ∧ b = b) := fun hc => ((fin4_facts a).2 ha).1 hc.1
      obtain ⟨hn', hu'⟩ := oneEmpty_swap g a b (a + 1) b hn hu hne
      have hloc' : empty_loc (swap g a b (a + 1) b) = some (a + 1, b) :=
        oneEmpty_empty_loc _ _ _ hn' hu'
      refine ⟨⟨a + 1, b, hn', hu'⟩, ?_⟩
      simp only [invMove, perform_move, hloc']
      rw [if_neg ((fin4_facts a).2 ha).2.1, ((fin4_facts a).2 ha).2.2,
        swap_swap g a b (a + 1) b hne]
  | BottomToTop =>
    simp only [perform_move, hloc] at hmv
    by_cases hb : b = 3
    · rw [if_pos hb] at hmv
      simp at hmv
    · rw [if_neg hb, Option.some.injEq, Prod.mk.injEq] at hmv
      obtain ⟨rfl, -⟩ := hmv
      have hne : ¬(a = a ∧ b = b + 1) := fun hc => ((fin4_facts b).2 hb).1 hc.2
      obtain ⟨hn', hu'⟩ := oneEmpty_swap g a b a (b + 1) hn hu hne
      have hloc' : empty_loc (swap g a b a (b + 1)) = some (a, b + 1) :=
        oneEmpty_empty_loc _ _ _ hn' hu'
      refine ⟨⟨a, b + 1, hn', hu'⟩, ?_⟩
      simp only [invMove, perform_move, hloc']
      rw [if_neg ((fin4_facts b).2 hb).2.1, ((fin4_facts b).2 hb).2.2,
        swap_swap g a b a (b + 1) hne]
  | TopToBottom =>
    simp only [perform_move, hloc] at hmv
    by_cases hb : b = 0
    · rw [if_pos hb] at hmv
      simp at hmv
    · rw [if_neg hb, Option.some.injEq, Prod.mk.injEq] at hmv
      obtain ⟨rfl, -⟩ := hmv
      have hne : ¬(a = a ∧ b = b - 1) := fun hc => ((fin4_facts b).1 hb).1 hc.2
      obtain ⟨hn', hu'⟩ := oneEmpty_swap g a b a (b - 1) hn hu hne
      have hloc' : empty_loc (swap g a b a (b - 1)) = some (a, b - 1) :=
        oneEmpty_empty_loc _ _ _ hn' hu'
      refine ⟨⟨a, b - 1, hn', hu'⟩, ?_⟩
      simp only [invMove, perform_move, hloc']
      rw [if_neg ((fin4_facts b).1 hb).2.1, ((fin4_facts b).1 hb).2.2,
        swap_swap g a b a (b - 1) hne]

/-- On a board with exactly one empty cell, a fully successful move sequence
is undone by its reversed, move-by-move-inverted sequence. -/
theorem moves_inverse (ms : List Move) : ∀ g g' : Board, oneEmpty g →
    perform_moves g ms = some (g', ms.length) →
    perform_moves g' (ms.reverse.map invMove) = some (g, ms.length) := by
  induction ms with
  | nil =>
    intro g g' _ h
    simp only [perform_moves, Option.some.injEq, Prod.mk.injEq] at h
    obtain ⟨rfl, -⟩ := h
    simp [perform_moves]
  | cons m rest ih =>
    intro g g' hone h
    simp only [perform_moves] at h
    cases hm : perform_move g m with
    | none => simp only [hm] at h; exact Option.noConfusion h
    | some p =>
      obtain ⟨g1, moved⟩ := p
      simp only [hm] at h
      cases h1 : perform_moves g1 rest with
      | none => simp only [h1] at h; exact Option.noConfusion h
      | some p1 =>
        obtain ⟨g2, c⟩ := p1
        simp only [h1, Option.some.injEq, Prod.mk.injEq] at h
        have hc := perform_moves_count_le rest g1 g2 c h1
        obtain ⟨rfl, hcc⟩ := h
        cases moved with
        | false =>
          exfalso
          simp only [List.length_cons, if_neg (by simp : ¬False)] at hcc
          simp at hcc
          omega
        | true =>
          simp only [List.length_cons, if_pos trivial] at hcc
          simp at hcc
          have hcr : c = rest.length := by omega
          subst hcr
          obtain ⟨hone1, hinv⟩ := move_inverse g g1 m hone hm
          have hrest := ih g1 g2 hone1 h1
          rw [List.reverse_cons, List.map_append, perform_moves_append, hrest]
          simp [perform_moves, hinv]

/-- Parsing the rendered text of a valid board returns that board. -/
theorem from_str_render (g : Board) (hu : all_tiles_unique g = true) :
    from_str (render g) = some g := by
  have hv : ∀ x y : Fin 4, cellValid (g x y) := by
    intro x y
    exact ((all_tiles_unique_iff g).mp hu).1 (g x y)
      (List.mem_map.mpr ⟨(x, y), mem_scanList _, rfl⟩)
  have hrows := nonBlankRows_render g hv
  simp only [from_str, hrows, List.getD_cons_zero, List.getD_cons_succ]
  rw [if_pos (by simp)]
  rw [parseRowSlots_renderRow g 0 (fun x => hv x 0),
    parseRowSlots_renderRow g 1 (fun x => hv x 1),
    parseRowSlots_renderRow g 2 (fun x => hv x 2),
    parseRowSlots_renderRow g 3 (fun x => hv x 3)]
  have hg : (fun x y => ![(fun x => g x 0), (fun x => g x 1),
      (fun x => g x 2), (fun x => g x 3)] y x) = g := by
    funext x y
    fin_cases y <;> rfl
  show (if all_tiles_unique (fun x y => ![(fun x => g x 0), (fun x => g x 1),
      (fun x => g x 2), (fun x => g x 3)] y x) = true
    then some (fun x y => ![(fun x => g x 0), (fun x => g x 1),
      (fun x => g x 2), (fun x => g x 3)] y x)
    else none) = some g
  rw [hg, if_pos hu]


/-- A list of length 4 is a literal 4-element list. -/
theorem exists_len4 {α : Type} (l : List α) (h : l.length = 4) :
    ∃ a b c d, l = [a, b, c, d] := by
  cases l with
  | nil => simp at h
  | cons a l1 =>
    cases l1 with
    | nil => simp at h
    | cons b l2 =>
      cases l2 with
      | nil => simp at h
      | cons c l3 =>
        cases l3 with
        | nil => simp at h
        | cons d l4 =>
          cases l4 with
          | nil => exact ⟨a, b, c, d, rfl⟩
          | cons e l5 =>
            simp only [List.length_cons] at h
            omega

/-- A list of length 6 is a literal 6-element list. -/
theorem exists_len6 {α : Type} (l : List α) (h : l.length = 6) :
    ∃ a b c d e f, l = [a, b, c, d, e, f] := by
  cases l with
  | nil => simp at h
  | cons a l1 =>
    cases l1 with
    | nil => simp at h
    | cons b l2 =>
      cases l2 with
      | nil => simp at h
      | cons c l3 =>
        cases l3 with
        | nil => simp at h
        | cons d l4 =>
          cases l4 with
          | nil => simp at h
          | cons e l5 =>
            cases l5 with
            | nil => simp at h
            | cons f l6 =>
              cases l6 with
              | nil => exact ⟨a, b, c, d, e, f, rfl⟩
              | cons g l7 =>
                simp only [List.length_cons] at h
                omega

/-- A slot parses exactly when it is blank or a valid `u8` numeral. -/
theorem parseSlot_isSome_iff (e : List Char) :
    (parseSlot e).isSome = true ↔
      (e.isEmpty = true ∨ (parseU8Chars e).isSome = true) := by
  rw [parseSlot]
  by_cases he : e.isEmpty = true
  · simp [he]
  · cases hp : parseU8Chars e <;> simp [he, hp]

/-- `u8` parsing succeeds with value `v` exactly when unbounded unsigned
parsing does and `v` fits in 8 bits. -/
theorem parseU8_eq_unsigned (e : List Char) (v : Nat) :
    parseU8Chars e = some v ↔ (parseUnsigned e = some v ∧ v ≤ 255) := by
  rw [parseU8Chars]
  cases hp : parseUnsigned e with
  | none => simp
  | some w =>
    by_cases hw : w ≤ 255
    · simp only [if_pos hw, Option.some.injEq]
      constructor
      · rintro rfl
        exact ⟨rfl, hw⟩
      · rintro ⟨h1, -⟩
        exact h1
    · simp only [if_neg hw]
      constructor
      · intro h
        exact absurd h (by simp)
      · rintro ⟨h1, h2⟩
        injection h1 with h1
        subst h1
        exact absurd h2 hw

/-- If the `u8` parse succeeds, so does the unbounded unsigned parse. -/
theorem parseU8_isSome_unsigned (e : List Char)
    (h : (parseU8Chars e).isSome = true) : (parseUnsigned e).isSome = true := by
  rw [parseU8Chars] at h
  cases hp : parseUnsigned e with
  | none => rw [hp] at h; simp at h
  | some w => rfl

/-- A successfully parsed slot holds exactly its unbounded unsigned value
(`none` for the blank slot). -/
theorem parseSlot_eq_some_unsigned (e : List Char)
    (h : (parseSlot e).isSome = true) :
    parseSlot e = some (parseUnsigned e) := by
  rw [parseSlot] at h ⊢
  by_cases he : e.isEmpty = true
  · rw [if_pos he]
    have : e = [] := by
      cases e with
      | nil => rfl
      | cons a t => simp [List.isEmpty] at he
    subst this
    rfl
  · rw [if_neg he] at h ⊢
    cases hp : parseU8Chars e with
    | none => simp only [hp] at h; simp at h
    | some v =>
      simp only [hp]
      obtain ⟨hu, -⟩ := (parseU8_eq_unsigned e v).mp hp
      rw [hu]

/-- A board with one out-of-range cell never passes the uniqueness check. -/
theorem all_tiles_unique_false_of_invalid (g : Board) (x y : Fin 4)
    (h : ¬cellValid (g x y)) : all_tiles_unique g = false := by
  cases hb : all_tiles_unique g with
  | false => rfl
  | true =>
    exact absurd (((all_tiles_unique_iff g).mp hb).1 (g x y)
      (List.mem_map.mpr ⟨(x, y), mem_scanList _, rfl⟩)) h


/-- A row parses exactly when it has 5 delimiters and each interior slot is
blank or a valid `u8` numeral. -/
theorem parseRowSlots_isSome_iff (row : List Char) :
    (parseRowSlots row).isSome = true ↔
      (row.count '|' = 5 ∧
        ∀ slot ∈ (((splitOnChar '|' row).map trimChars).drop 1).take 4,
          slot.isEmpty = true ∨ (parseU8Chars slot).isSome = true) := by
  have hlen : ((splitOnChar '|' row).map trimChars).length = row.count '|' + 1 := by
    rw [List.length_map, splitOnChar_length]
  by_cases h6 : ((splitOnChar '|' row).map trimChars).length = 6
  · have hcount : row.count '|' = 5 := by omega
    obtain ⟨e0, e1, e2, e3, e4, e5, hel⟩ := exists_len6 _ h6
    simp only [parseRowSlots, hel, List.getD_cons_zero, List.getD_cons_succ]
    rw [if_pos (by simp)]
    simp only [hcount, true_and, List.drop_succ_cons, List.drop_zero,
      List.take_succ_cons, List.take_zero, List.forall_mem_cons,
      List.forall_mem_nil, and_true]
    rw [← parseSlot_isSome_iff, ← parseSlot_isSome_iff, ← parseSlot_isSome_iff,
      ← parseSlot_isSome_iff]
    cases parseSlot e1 <;> cases parseSlot e2 <;> cases parseSlot e3 <;>
      cases parseSlot e4 <;> simp
  · have hcount : ¬(row.count '|' = 5) := by omega
    simp only [parseRowSlots, if_neg h6]
    simp [hcount]

/-- The values of a successfully parsed row are the unsigned values of its
interior slots. -/
theorem parseRowSlots_values (row : List Char) (f : Fin 4 → Option Nat)
    (h : parseRowSlots row = some f) (x : Fin 4) :
    f x = parseUnsigned
      (((splitOnChar '|' row).map trimChars).getD (x.val + 1) []) := by
  by_cases h6 : ((splitOnChar '|' row).map trimChars).length = 6
  · obtain ⟨e0, e1, e2, e3, e4, e5, hel⟩ := exists_len6 _ h6
    simp only [parseRowSlots, hel, List.getD_cons_zero, List.getD_cons_succ] at h
    rw [if_pos (by simp)] at h
    cases hp1 : parseSlot e1 with
    | none => simp only [hp1] at h; exact Option.noConfusion h
    | some a1 =>
      cases hp2 : parseSlot e2 with
      | none => simp only [hp1, hp2] at h; exact Option.noConfusion h
      | some a2 =>
        cases hp3 : parseSlot e3 with
        | none => simp only [hp1, hp2, hp3] at h; exact Option.noConfusion h
        | some a3 =>
          cases hp4 : parseSlot e4 with
          | none => simp only [hp1, hp2, hp3, hp4] at h; exact Option.noConfusion h
          | some a4 =>
            simp only [hp1, hp2, hp3, hp4, Option.some.injEq] at h
            subst h
            have hv1 : a1 = parseUnsigned e1 := by
              have hh := parseSlot_eq_some_unsigned e1 (by rw [hp1]; rfl)
              rw [hp1] at hh
              exact Option.some.inj hh
            have hv2 : a2 = parseUnsigned e2 := by
              have hh := parseSlot_eq_some_unsigned e2 (by rw [hp2]; rfl)
              rw [hp2] at hh
              exact Option.some.inj hh
            have hv3 : a3 = parseUnsigned e3 := by
              have hh := parseSlot_eq_some_unsigned e3 (by rw [hp3]; rfl)
              rw [hp3] at hh
              exact Option.some.inj hh
            have hv4 : a4 = parseUnsigned e4 := by
              have hh := parseSlot_eq_some_unsigned e4 (by rw [hp4]; rfl)
              rw [hp4] at hh
              exact Option.some.inj hh
            rw [hel]
            fin_cases x <;>
              simp only [List.getD_cons_zero, List.getD_cons_succ] <;>
              first
                | (rw [← hv1]; rfl)
                | (rw [← hv2]; rfl)
                | (rw [← hv3]; rfl)
                | (rw [← hv4]; rfl)
  · simp only [parseRowSlots, if_neg h6] at h
    exact Option.noConfusion h


/-- If the parsed grid of a row's unsigned slot values passes the
uniqueness/range check, every spec-acceptable slot of that row is in fact a
valid `u8` slot, so the row parses. -/
theorem row_slots_u8_of_spec (row : List Char) (G : Board) (i : Fin 4)
    (hcell : ∀ x : Fin 4, G x i = parseUnsigned
      (((splitOnChar '|' row).map trimChars).getD (x.val + 1) []))
    (huniq : all_tiles_unique G = true)
    (hcount : row.count '|' = 5)
    (hslots : ∀ slot ∈ (((splitOnChar '|' row).map trimChars).drop 1).take 4,
      slot.isEmpty = true ∨ (parseUnsigned slot).isSome = true) :
    (parseRowSlots row).isSome = true := by
  rw [parseRowSlots_isSome_iff]
  refine ⟨hcount, ?_⟩
  have hkey : ∀ (x : Fin 4) (e : List Char),
      (((splitOnChar '|' row).map trimChars).getD (x.val + 1) [] = e) →
      (e.isEmpty = true ∨ (parseUnsigned e).isSome = true) →
      (e.isEmpty = true ∨ (parseU8Chars e).isSome = true) := by
    intro x e he hspec
    rcases hspec with h | h
    · exact Or.inl h
    · cases hv : parseUnsigned e with
      | none => rw [hv] at h; simp at h
      | some v =>
        by_cases hvb : v ≤ 255
        · right
          simp only [parseU8Chars, hv]
          rw [if_pos hvb]
          rfl
        · exfalso
          have hcellx := hcell x
          rw [he, hv] at hcellx
          have hbad : ¬cellValid (G x i) := by
            rw [hcellx]
            simp only [cellValid]
            omega
          rw [all_tiles_unique_false_of_invalid G x i hbad] at huniq
          exact Bool.noConfusion huniq
  have h6 : ((splitOnChar '|' row).map trimChars).length = 6 := by
    rw [List.length_map, splitOnChar_length, hcount]
  obtain ⟨e0, e1, e2, e3, e4, e5, hel⟩ := exists_len6 _ h6
  rw [hel] at hslots ⊢
  simp only [List.drop_succ_cons, List.drop_zero, List.take_succ_cons,
    List.take_zero, List.forall_mem_cons, List.forall_mem_nil, and_true]
    at hslots ⊢
  obtain ⟨hs1, hs2, hs3, hs4, -⟩ := hslots
  exact ⟨hkey 0 e1 (by rw [hel]; rfl) hs1, hkey 1 e2 (by rw [hel]; rfl) hs2,
    hkey 2 e3 (by rw [hel]; rfl) hs3, hkey 3 e4 (by rw [hel]; rfl) hs4,
    fun x hx => absurd hx (List.not_mem_nil x)⟩

end Lemmas

section Claims

/-- C5: `perform_moves` applies the moves one by one in order with no early
termination (splitting the list splits the run, failed moves are skipped and
only successes are counted), and on the default board the sequence
`[RightToLeft, BottomToTop, TopToBottom]` yields count 1 and the same final
board as `[TopToBottom]` alone. -/
theorem C5_perform_moves_skip_count :
    (∀ (g : Board) (ms ns : List Move),
      perform_moves g (ms ++ ns) =
        (perform_moves g ms).bind (fun p =>
          (perform_moves p.1 ns).map (fun q => (q.1, p.2 + q.2)))) ∧
    perform_moves default_board
        [Move.RightToLeft, Move.BottomToTop, Move.TopToBottom] =
      some (downBoard, 1) ∧
    perform_moves default_board [Move.TopToBottom] = some (downBoard, 1) :=
  ⟨perform_moves_append, by decide, by decide⟩

/-- C2 (code bug): `find_shortest_path(B, B)` does return `[]` when the empty
cell of `B` is on an edge, but on the valid board `interiorBoard` (empty cell
at column 2, row 2, reached from the default board by two legal moves) it
returns the two-move sequence `[LeftToRight, RightToLeft]` instead of the
empty sequence. -/
theorem C2_code_bug_eval :
    perform_moves default_board [Move.LeftToRight, Move.TopToBottom] =
      some (interiorBoard, 2) ∧
    all_tiles_unique interiorBoard = true ∧
    find_shortest_path interiorBoard interiorBoard =
      some [Move.LeftToRight, Move.RightToLeft] ∧
    find_shortest_path interiorBoard interiorBoard ≠ some [] := by decide

/-- C1 (code bug): on `start = goal = interiorBoard2` (a valid board, goal
trivially reachable within the level bound), the search returns
`[LeftToRight, RightToLeft]`, although the strictly shorter empty sequence
already transforms `start` into `goal` — so the returned sequence is not of
minimal length. -/
theorem C1_code_bug_eval :
    perform_moves default_board [Move.TopToBottom, Move.LeftToRight] =
      some (interiorBoard2, 2) ∧
    all_tiles_unique interiorBoard2 = true ∧
    perform_moves interiorBoard2 [] = some (interiorBoard2, 0) ∧
    find_shortest_path interiorBoard2 interiorBoard2 =
      some [Move.LeftToRight, Move.RightToLeft] := by decide

/-- C3: searching from the default board to the board produced by
`[TopToBottom, LeftToRight, BottomToTop]` returns exactly that 3-move
sequence, the candidate moves being tried in the fixed order
`[LeftToRight, RightToLeft, TopToBottom, BottomToTop]`. -/
theorem C3_rotation_deterministic :
    perform_moves default_board
        [Move.TopToBottom, Move.LeftToRight, Move.BottomToTop] =
      some (goalRot, 3) ∧
    moveOrder = [Move.LeftToRight, Move.RightToLeft, Move.TopToBottom, Move.BottomToTop] ∧
    find_shortest_path default_board goalRot =
      some [Move.TopToBottom, Move.LeftToRight, Move.BottomToTop] := by decide

/-- C6: when the empty cell is found at `(x, y)`, `perform_move` returns
`false` leaving the board unchanged exactly when the move pulls from beyond
the edge the empty cell sits on (column 0 for `LeftToRight`, column 3 for
`RightToLeft`, row 3 for `BottomToTop`, row 0 for `TopToBottom`), and
otherwise returns `true` having performed the corresponding swap. -/
theorem C6_perform_move_edge (g : Board) (x y : Fin 4) (m : Move)
    (h : empty_loc g = some (x, y)) :
    ((perform_move g m = some (g, false)) ↔
      ((m = Move.LeftToRight ∧ x = 0) ∨ (m = Move.RightToLeft ∧ x = 3) ∨
       (m = Move.BottomToTop ∧ y = 3) ∨ (m = Move.TopToBottom ∧ y = 0))) ∧
    (¬((m = Move.LeftToRight ∧ x = 0) ∨ (m = Move.RightToLeft ∧ x = 3) ∨
       (m = Move.BottomToTop ∧ y = 3) ∨ (m = Move.TopToBottom ∧ y = 0)) →
      perform_move g m = some (moveSwap g x y m, true)) := by
  cases m with
  | LeftToRight => by_cases hx : x = 0 <;> simp [perform_move, h, moveSwap, hx]
  | RightToLeft => by_cases hx : x = 3 <;> simp [perform_move, h, moveSwap, hx]
  | TopToBottom => by_cases hy : y = 0 <;> simp [perform_move, h, moveSwap, hy]
  | BottomToTop => by_cases hy : y = 3 <;> simp [perform_move, h, moveSwap, hy]

/-- Witness for C6 on the default board (empty cell at the corner `(3, 3)`):
`RightToLeft` is rejected without changing the board, `TopToBottom` succeeds
with the corresponding swap. -/
theorem C6_perform_move_edge_witness :
    (perform_move default_board Move.RightToLeft = some (default_board, false)) ∧
    (perform_move default_board Move.TopToBottom =
      some (moveSwap default_board 3 3 Move.TopToBottom, true)) :=
  ⟨((C6_perform_move_edge default_board 3 3 Move.RightToLeft (by decide)).1).mpr
      (Or.inr (Or.inl ⟨rfl, rfl⟩)),
   (C6_perform_move_edge default_board 3 3 Move.TopToBottom (by decide)).2
      (by decide)⟩

/-- C10: `perform_move` cannot hit the fatal `empty_loc` panic as long as
some cell is empty (even on invalid boards with several empty cells), the
empty-cell lookup returns exactly the first empty cell in the fixed scan
order (columns in the outer loop, rows in the inner loop), and it fails
fatally precisely when the board has no empty cell at all. -/
theorem C10_empty_loc_scan_order :
    (∀ (g : Board) (m : Move), (∃ x y : Fin 4, g x y = none) →
      (perform_move g m).isSome = true) ∧
    (∀ (g : Board) (x y : Fin 4), empty_loc g = some (x, y) ↔
      (g x y = none ∧ ∀ x' y' : Fin 4,
        (x' < x ∨ (x' = x ∧ y' < y)) → g x' y' ≠ none)) ∧
    (∀ g : Board, empty_loc g = none ↔ ∀ x y : Fin 4, g x y ≠ none) := by
  refine ⟨?_, fun g x y => empty_loc_eq_some_iff g x y, fun g => empty_loc_eq_none_iff g⟩
  intro g m hex
  cases he : empty_loc g with
  | none =>
    obtain ⟨x, y, hxy⟩ := hex
    exact absurd hxy ((empty_loc_eq_none_iff g).mp he x y)
  | some p =>
    obtain ⟨a, b⟩ := p
    cases m <;> simp only [perform_move, he] <;> split <;> rfl

/-- Witness for C10 on an invalid board with two empty cells: the move does
not panic, and the lookup picks `(0, 1)`, the first empty cell in scan
order. -/
theorem C10_empty_loc_scan_order_witness :
    (perform_move multiEmptyBoard Move.LeftToRight).isSome = true ∧
    empty_loc multiEmptyBoard = some (0, 1) :=
  ⟨C10_empty_loc_scan_order.1 multiEmptyBoard Move.LeftToRight ⟨0, 1, by decide⟩,
   (C10_empty_loc_scan_order.2.1 multiEmptyBoard 0 1).mpr ⟨by decide, by decide⟩⟩

/-- C7: on a board that passes `all_tiles_unique`, any successful
`perform_move` yields a board that still passes `all_tiles_unique`, because
the move is a transposition of the empty cell with one adjacent tile. -/
theorem C7_move_preserves_unique (g g' : Board) (m : Move)
    (hu : all_tiles_unique g = true) (hmv : perform_move g m = some (g', true)) :
    all_tiles_unique g' = true := by
  cases he : empty_loc g with
  | none =>
    simp only [perform_move, he] at hmv
    exact Option.noConfusion hmv
  | some p =>
    obtain ⟨a, b⟩ := p
    cases m with
    | LeftToRight =>
      simp only [perform_move, he] at hmv
      by_cases ha : a = 0
      · rw [if_pos ha] at hmv
        simp at hmv
      · rw [if_neg ha, Option.some.injEq, Prod.mk.injEq] at hmv
        obtain ⟨rfl, -⟩ := hmv
        rw [all_tiles_unique_swap g a b (a - 1) b
          (fun hc => ((fin4_facts a).1 ha).1 hc.1)]
        exact hu
    | RightToLeft =>
      simp only [perform_move, he] at hmv
      by_cases ha : a = 3
      · rw [if_pos ha] at hmv
        simp at hmv
      · rw [if_neg ha, Option.some.injEq, Prod.mk.injEq] at hmv
        obtain ⟨rfl, -⟩ := hmv
        rw [all_tiles_unique_swap g a b (a + 1) b
          (fun hc => ((fin4_facts a).2 ha).1 hc.1)]
        exact hu
    | BottomToTop =>
      simp only [perform_move, he] at hmv
      by_cases hb : b = 3
      · rw [if_pos hb] at hmv
        simp at hmv
      · rw [if_neg hb, Option.some.injEq, Prod.mk.injEq] at hmv
        obtain ⟨rfl, -⟩ := hmv
        rw [all_tiles_unique_swap g a b a (b + 1)
          (fun hc => ((fin4_facts b).2 hb).1 hc.2)]
        exact hu
    | TopToBottom =>
      simp only [perform_move, he] at hmv
      by_cases hb : b = 0
      · rw [if_pos hb] at hmv
        simp at hmv
      · rw [if_neg hb, Option.some.injEq, Prod.mk.injEq] at hmv
        obtain ⟨rfl, -⟩ := hmv
        rw [all_tiles_unique_swap g a b a (b - 1)
          (fun hc => ((fin4_facts b).1 hb).1 hc.2)]
        exact hu

/-- Witness for C7: the default board is valid and the move `TopToBottom`
succeeds, so the resulting board is valid too. -/
theorem C7_move_preserves_unique_witness : all_tiles_unique downBoard = true :=
  C7_move_preserves_unique default_board downBoard Move.TopToBottom
    (by decide) (by decide)

/-- C8 (amended: restricted to boards with exactly one empty cell; on an
invalid board with several empty cells the property fails, see the
counterexample): a successful move is undone by its inverse move, restoring
the board, and a fully successful sequence is undone by the reversed,
move-by-move-inverted sequence. -/
theorem C8_inverse_moves :
    (∀ (g g' : Board) (m : Move), oneEmpty g →
      perform_move g m = some (g', true) →
      perform_move g' (invMove m) = some (g, true)) ∧
    (∀ (ms : List Move) (g g' : Board), oneEmpty g →
      perform_moves g ms = some (g', ms.length) →
      perform_moves g' (ms.reverse.map invMove) = some (g, ms.length)) :=
  ⟨fun g g' m h1 h2 => (move_inverse g g' m h1 h2).2,
   fun ms g g' h1 h2 => moves_inverse ms g g' h1 h2⟩

/-- Witness for C8: undoing `TopToBottom` on the default board, once as a
single move and once as a one-move sequence. -/
theorem C8_inverse_moves_witness :
    perform_move downBoard (invMove Move.TopToBottom) =
      some (default_board, true) ∧
    perform_moves downBoard ([Move.TopToBottom].reverse.map invMove) =
      some (default_board, 1) :=
  ⟨C8_inverse_moves.1 default_board downBoard Move.TopToBottom
      ⟨3, 3, by decide, by decide⟩ (by decide),
   C8_inverse_moves.2 [Move.TopToBottom] default_board downBoard
      ⟨3, 3, by decide, by decide⟩ (by decide)⟩

/-- C8 counterexample: on the invalid board with empty cells at `(0, 0)` and
`(0, 1)`, `RightToLeft` succeeds, but the inverse move `LeftToRight` then
fails and does not restore the original board — the claim is false for
boards that are not one-empty. -/
theorem C8_counterexample_two_empty :
    perform_move twoEmptyBoard Move.RightToLeft =
      some (twoEmptyBoardAfter, true) ∧
    perform_move twoEmptyBoardAfter (invMove Move.RightToLeft) =
      some (twoEmptyBoardAfter, false) ∧
    twoEmptyBoardAfter ≠ twoEmptyBoard := by decide

/-- C9: rendering a valid board and parsing the text back succeeds and
yields the very same board, so re-rendering the parsed board reproduces the
identical text. -/
theorem C9_render_parse_round_trip (g : Board) (hu : all_tiles_unique g = true) :
    from_str (render g) = some g ∧
    (from_str (render g)).map render = some (render g) := by
  have h1 := from_str_render g hu
  exact ⟨h1, by rw [h1]; rfl⟩

/-- Witness for C9 at the default board. -/
theorem C9_render_parse_round_trip_witness :
    from_str (render default_board) = some default_board :=
  (C9_render_parse_round_trip default_board (by decide)).1

/-- C4 counterexample: the rendered default board with an extra `x` after
the final delimiter of the first line still parses successfully — content
outside the outermost delimiters is ignored, not rejected, so parsing does
not return `None` on that deviation. -/
theorem C4_counterexample_trailing_junk :
    from_str junkStr = some default_board := by decide

/-- C4 (amended: content before the first and after the last `'|'` of a
line is ignored rather than rejected): parsing succeeds exactly when the
input has exactly 4 non-blank lines, every line has exactly 5 `'|'`
characters with each of the 4 delimited interior slots blank or an unsigned
numeral, and the resulting grid passes the uniqueness/range check; it fails
on every deviation: wrong row count, wrong delimiter count, a non-numeric
non-blank token, a duplicate tile, a tile 0 or above 15, or more than one
empty cell. -/
theorem C4_from_str_acceptance (s : List Char) :
    (from_str s).isSome = true ↔ specAccepts s := by
  by_cases hlen : (nonBlankRows s).length = 4
  · obtain ⟨r0, r1, r2, r3, hrows⟩ := exists_len4 _ hlen
    simp only [specAccepts, from_str, hrows, List.getD_cons_zero,
      List.getD_cons_succ, List.length_cons, List.length_nil,
      List.forall_mem_cons, List.forall_mem_nil, and_true, true_and]
    rw [if_pos (by norm_num)]
    constructor
    · intro hsome
      cases hp0 : parseRowSlots r0 with
      | none => simp only [hp0] at hsome; exact absurd hsome (by simp)
      | some f0 =>
      cases hp1 : parseRowSlots r1 with
      | none => simp only [hp0, hp1] at hsome; exact absurd hsome (by simp)
      | some f1 =>
      cases hp2 : parseRowSlots r2 with
      | none => simp only [hp0, hp1, hp2] at hsome; exact absurd hsome (by simp)
      | some f2 =>
      cases hp3 : parseRowSlots r3 with
      | none =>
        simp only [hp0, hp1, hp2, hp3] at hsome
        exact absurd hsome (by simp)
      | some f3 =>
      simp only [hp0, hp1, hp2, hp3] at hsome
      by_cases hun : all_tiles_unique (fun x y => ![f0, f1, f2, f3] y x) = true
      · have hgeq : (fun x y : Fin 4 => parseUnsigned
            ((List.map trimChars
              (splitOnChar '|' ([r0, r1, r2, r3].getD ↑y []))).getD (↑x + 1) [])) =
            (fun x y => ![f0, f1, f2, f3] y x) := by
          funext x y
          fin_cases y
          · exact (parseRowSlots_values r0 f0 hp0 x).symm
          · exact (parseRowSlots_values r1 f1 hp1 x).symm
          · exact (parseRowSlots_values r2 f2 hp2 x).symm
          · exact (parseRowSlots_values r3 f3 hp3 x).symm
        have hrow : ∀ (r : List Char) (f : Fin 4 → Option Nat),
            parseRowSlots r = some f →
            (r.count '|' = 5 ∧
              ∀ slot ∈ (((splitOnChar '|' r).map trimChars).drop 1).take 4,
                slot.isEmpty = true ∨ (parseUnsigned slot).isSome = true) := by
          intro r f hp
          obtain ⟨hc, hs⟩ := (parseRowSlots_isSome_iff r).mp (by rw [hp]; rfl)
          exact ⟨hc, fun slot hm => (hs slot hm).imp id (parseU8_isSome_unsigned slot)⟩
        refine ⟨⟨hrow r0 f0 hp0, hrow r1 f1 hp1, hrow r2 f2 hp2,
          hrow r3 f3 hp3, fun x hx => absurd hx (List.not_mem_nil x)⟩, ?_⟩
        rw [hgeq]
        exact hun
      · rw [if_neg hun] at hsome
        simp at hsome
    · rintro ⟨⟨h0, h1, h2, h3, -⟩, hgrid⟩
      have hu0 : (parseRowSlots r0).isSome = true :=
        row_slots_u8_of_spec r0 _ 0 (fun x => rfl) hgrid h0.1 h0.2
      have hu1 : (parseRowSlots r1).isSome = true :=
        row_slots_u8_of_spec r1 _ 1 (fun x => rfl) hgrid h1.1 h1.2
      have hu2 : (parseRowSlots r2).isSome = true :=
        row_slots_u8_of_spec r2 _ 2 (fun x => rfl) hgrid h2.1 h2.2
      have hu3 : (parseRowSlots r3).isSome = true :=
        row_slots_u8_of_spec r3 _ 3 (fun x => rfl) hgrid h3.1 h3.2
      obtain ⟨f0, hp0⟩ := Option.isSome_iff_exists.mp hu0
      obtain ⟨f1, hp1⟩ := Option.isSome_iff_exists.mp hu1
      obtain ⟨f2, hp2⟩ := Option.isSome_iff_exists.mp hu2
      obtain ⟨f3, hp3⟩ := Option.isSome_iff_exists.mp hu3
      simp only [hp0, hp1, hp2, hp3]
      have hgeq : (fun x y : Fin 4 => parseUnsigned
          ((List.map trimChars
            (splitOnChar '|' ([r0, r1, r2, r3].getD ↑y []))).getD (↑x + 1) [])) =
          (fun x y => ![f0, f1, f2, f3] y x) := by
        funext x y
        fin_cases y
        · exact (parseRowSlots_values r0 f0 hp0 x).symm
        · exact (parseRowSlots_values r1 f1 hp1 x).symm
        · exact (parseRowSlots_values r2 f2 hp2 x).symm
        · exact (parseRowSlots_values r3 f3 hp3 x).symm
      rw [if_pos (by rw [← hgeq]; exact hgrid)]
      rfl
  · simp only [from_str, if_neg hlen, specAccepts]
    simp [hlen]

/-- Witness for C4: the junk-suffixed rendered default board is accepted by
the amended specification condition. -/
theorem C4_from_str_acceptance_witness : specAccepts junkStr :=
  (C4_from_str_acceptance junkStr).mp (by decide)

end Claims

end Puzzle15
